import Mathlib

/-!
Verification development for the vessel-data scraper and merger.

The repository has three Python scripts:
  * src/main.py  - the primary-source scraper; relevant here is the pure
    function normalize_name (main.py lines 75-94).
  * src/vt.py    - the secondary-source scraper (relevant only for the shape
    of the secondary vessels table it produces).
  * src/merge.py - the reconciliation script: load_countries_mapping
    (lines 14-66), save_countries_mapping, and merge_databases (lines 82-174).

Strings are embedded as lists of characters (Str).  Python truthiness of a
string (falsy exactly when empty) is modelled explicitly.  SQL NULL is
modelled by Option.  The whitespace class models the ASCII part of the
Python regex class for whitespace and of str.strip, and upperChar models
str.upper on ASCII letters; both are used consistently on both sides of
every comparison, as the Python code does.
-/

abbrev Str := List Char

/-- Character codes of the ASCII whitespace characters recognised by the
Python whitespace regex class and by str.strip: space, tab, newline,
carriage return, vertical tab, form feed. -/
def wsCodes : List Nat := [32, 9, 10, 13, 11, 12]

def isWS (c : Char) : Bool := wsCodes.contains c.toNat

/-- Character codes of the characters removed by normalize_name
(main.py line 88): exclamation mark, double quote, single quote, asterisk,
hyphen, dot, underscore, backtick. -/
def punctCodes : List Nat := [33, 34, 39, 42, 45, 46, 95, 96]

def isPunct (c : Char) : Bool := punctCodes.contains c.toNat

/-- ASCII lower-to-upper table realising Python str.upper on ASCII. -/
def upperPairs : List (Char × Char) :=
  [('a', 'A'), ('b', 'B'), ('c', 'C'), ('d', 'D'), ('e', 'E'), ('f', 'F'),
   ('g', 'G'), ('h', 'H'), ('i', 'I'), ('j', 'J'), ('k', 'K'), ('l', 'L'),
   ('m', 'M'), ('n', 'N'), ('o', 'O'), ('p', 'P'), ('q', 'Q'), ('r', 'R'),
   ('s', 'S'), ('t', 'T'), ('u', 'U'), ('v', 'V'), ('w', 'W'), ('x', 'X'),
   ('y', 'Y'), ('z', 'Z')]

def upperChar (c : Char) : Char :=
  match upperPairs.find? (fun p => p.1 == c) with
  | some p => p.2
  | none => c

/-- Python str.upper, mapped over the characters of the string. -/
def upperL (l : Str) : Str := l.map upperChar

/-- Removal step of normalize_name: drop every punctuation character
(main.py line 88; replacing every maximal run by the empty string equals
dropping each character). -/
def removePunct (l : Str) : Str := l.filter (fun c => !isPunct c)

/-- Whitespace-collapsing step of normalize_name (main.py line 91):
every maximal run of whitespace becomes one single space. -/
def collapseWS : Str → Str
  | [] => []
  | [c] => [if isWS c then ' ' else c]
  | c :: d :: r =>
    if isWS c && isWS d then collapseWS (d :: r)
    else (if isWS c then ' ' else c) :: collapseWS (d :: r)

/-- Left half of Python str.strip. -/
def stripL (l : Str) : Str := l.dropWhile isWS

/-- Right half of Python str.strip. -/
def trimR : Str → Str
  | [] => []
  | c :: r =>
    match trimR r with
    | [] => if isWS c then [] else [c]
    | t => c :: t

/-- Python str.strip: drop whitespace from both ends. -/
def stripWS (l : Str) : Str := trimR (stripL l)

/-- normalize_name from src/main.py lines 75-94, over Option to model the
None-or-string argument and result.  A falsy argument (None or the empty
string) gives None; otherwise punctuation is removed, whitespace runs are
collapsed, the result is stripped and uppercased, and an empty final
result degrades to None. -/
def normalize_name : Option Str → Option Str
  | none => none
  | some s =>
    if s.isEmpty then none
    else
      let cleaned := collapseWS (removePunct s)
      let result := upperL (stripWS cleaned)
      if result.isEmpty then none else some result

/-! Structural predicates used to state the guarantees of normalize_name. -/

/-- No two adjacent characters are both whitespace. -/
def noAdjWS : Str → Bool
  | [] => true
  | [_] => true
  | c :: d :: r => (!(isWS c && isWS d)) && noAdjWS (d :: r)

/-- The first character, if any, is not whitespace. -/
def headNotWS : Str → Bool
  | [] => true
  | c :: _ => !isWS c

/-- The last character, if any, is not whitespace. -/
def lastNotWS : Str → Bool
  | [] => true
  | [c] => !isWS c
  | _ :: r => lastNotWS r

theorem upperChar_isWS (c : Char) : isWS (upperChar c) = isWS c := by
  cases h : upperPairs.find? (fun p => p.1 == c) with
  | none => unfold upperChar; rw [h]
  | some p =>
    have hm : p ∈ upperPairs := List.mem_of_find?_eq_some h
    have hb := List.find?_some h
    have hc : c = p.1 := (eq_of_beq hb).symm
    have hv : upperChar c = p.2 := by unfold upperChar; rw [h]
    rw [hv, hc]
    exact (by decide : ∀ q ∈ upperPairs, isWS q.2 = isWS q.1) p hm

theorem upperChar_isPunct (c : Char) : isPunct (upperChar c) = isPunct c := by
  cases h : upperPairs.find? (fun p => p.1 == c) with
  | none => unfold upperChar; rw [h]
  | some p =>
    have hm : p ∈ upperPairs := List.mem_of_find?_eq_some h
    have hb := List.find?_some h
    have hc : c = p.1 := (eq_of_beq hb).symm
    have hv : upperChar c = p.2 := by unfold upperChar; rw [h]
    rw [hv, hc]
    exact (by decide : ∀ q ∈ upperPairs, isPunct q.2 = isPunct q.1) p hm

theorem upperChar_idem (c : Char) : upperChar (upperChar c) = upperChar c := by
  cases h : upperPairs.find? (fun p => p.1 == c) with
  | none =>
    have hc : upperChar c = c := by unfold upperChar; rw [h]
    rw [hc]; exact hc
  | some p =>
    have hm : p ∈ upperPairs := List.mem_of_find?_eq_some h
    have hc : upperChar c = p.2 := by unfold upperChar; rw [h]
    rw [hc]
    exact (by decide : ∀ q ∈ upperPairs, upperChar q.2 = q.2) p hm

theorem upperChar_space (c : Char) (h : c = ' ') : upperChar c = c := by
  subst h; decide

theorem noAdjWS_tail {c : Char} {r : Str} (h : noAdjWS (c :: r) = true) :
    noAdjWS r = true := by
  cases r with
  | nil => rfl
  | cons d rs =>
    have := (Bool.and_eq_true _ _).mp h
    exact this.2

theorem noAdjWS_cons_of {e : Char} {t : Str} (h1 : noAdjWS t = true)
    (h2 : ∀ f, t.head? = some f → isWS e = false ∨ isWS f = false) :
    noAdjWS (e :: t) = true := by
  cases t with
  | nil => rfl
  | cons f r =>
    have hp := h2 f rfl
    unfold noAdjWS
    rw [Bool.and_eq_true]
    refine ⟨?_, h1⟩
    rcases hp with hp | hp <;> simp [hp]

theorem mem_collapseWS {l : Str} {c : Char} (h : c ∈ collapseWS l) :
    c = ' ' ∨ c ∈ l := by
  induction l with
  | nil => simp [collapseWS] at h
  | cons a r ih =>
    cases r with
    | nil =>
      cases hws : isWS a <;> simp [collapseWS, hws] at h
      · exact Or.inr (by simp [h])
      · exact Or.inl h
    | cons d rs =>
      simp only [collapseWS] at h
      split at h
      · rcases ih h with h1 | h1
        · exact Or.inl h1
        · exact Or.inr (List.mem_cons_of_mem a h1)
      · rcases List.mem_cons.mp h with h1 | h1
        · cases hws : isWS a
          · rw [hws] at h1; simp at h1; exact Or.inr (by simp [h1])
          · rw [hws] at h1; simp at h1; exact Or.inl h1
        · rcases ih h1 with h2 | h2
          · exact Or.inl h2
          · exact Or.inr (List.mem_cons_of_mem a h2)

theorem collapseWS_ws_space {l : Str} {c : Char} (hm : c ∈ collapseWS l)
    (hw : isWS c = true) : c = ' ' := by
  induction l with
  | nil => simp [collapseWS] at hm
  | cons a r ih =>
    cases r with
    | nil =>
      cases hws : isWS a <;> simp [collapseWS, hws] at hm
      · rw [hm] at hw; rw [hws] at hw; exact absurd hw (by simp)
      · exact hm
    | cons d rs =>
      simp only [collapseWS] at hm
      split at hm
      · exact ih hm
      · rcases List.mem_cons.mp hm with h1 | h1
        · cases hws : isWS a
          · rw [hws] at h1; simp at h1; rw [h1] at hw
            rw [hws] at hw; exact absurd hw (by simp)
          · rw [hws] at h1; simpa using h1
        · exact ih h1

theorem collapseWS_head_of_not_ws {d : Char} {r : Str} (h : isWS d = false) :
    (collapseWS (d :: r)).head? = some d := by
  cases r with
  | nil => simp [collapseWS, h]
  | cons e rs => simp [collapseWS, h]

theorem collapseWS_noAdj (l : Str) : noAdjWS (collapseWS l) = true := by
  induction l with
  | nil => rfl
  | cons a r ih =>
    cases r with
    | nil => cases hws : isWS a <;> simp [collapseWS, hws, noAdjWS]
    | cons d rs =>
      simp only [collapseWS]
      split
      · exact ih
      · rename_i hcd
        have hcd' : ¬(isWS a = true ∧ isWS d = true) := by
          intro ⟨x, y⟩; rw [x, y] at hcd; exact hcd rfl
        refine noAdjWS_cons_of ih ?_
        intro f hf
        cases hws : isWS a
        · simp [hws]
        · have hd : isWS d = false := by
            cases hd : isWS d
            · rfl
            · exact absurd ⟨hws, hd⟩ hcd'
          rw [collapseWS_head_of_not_ws hd] at hf
          injection hf with hf
          rw [hf] at hd
          exact Or.inr hd

theorem stripL_mem {l : Str} {c : Char} (h : c ∈ stripL l) : c ∈ l := by
  induction l with
  | nil => simp [stripL] at h
  | cons a r ih =>
    by_cases hws : isWS a = true
    · simp only [stripL, List.dropWhile, hws] at h
      exact List.mem_cons_of_mem a (ih h)
    · simp only [stripL, List.dropWhile] at h
      rw [Bool.not_eq_true] at hws
      rw [hws] at h
      simpa using h

theorem stripL_noAdj {l : Str} (h : noAdjWS l = true) :
    noAdjWS (stripL l) = true := by
  induction l with
  | nil => exact h
  | cons a r ih =>
    by_cases hws : isWS a = true
    · simp only [stripL, List.dropWhile, hws]
      exact ih (noAdjWS_tail h)
    · simp only [stripL, List.dropWhile]
      rw [Bool.not_eq_true] at hws
      rw [hws]
      exact h

theorem stripL_headNotWS (l : Str) : headNotWS (stripL l) = true := by
  induction l with
  | nil => rfl
  | cons a r ih =>
    by_cases hws : isWS a = true
    · simp only [stripL, List.dropWhile, hws]
      exact ih
    · simp only [stripL, List.dropWhile]
      rw [Bool.not_eq_true] at hws
      rw [hws]
      simp [headNotWS, hws]

theorem stripL_eq_self {l : Str} (h : headNotWS l = true) : stripL l = l := by
  cases l with
  | nil => rfl
  | cons a r =>
    have hws : isWS a = false := by
      simp only [headNotWS, Bool.not_eq_true'] at h
      exact h
    simp [stripL, List.dropWhile, hws]

theorem trimR_mem {l : Str} {c : Char} (h : c ∈ trimR l) : c ∈ l := by
  induction l with
  | nil => simp [trimR] at h
  | cons a r ih =>
    cases ht : trimR r with
    | nil =>
      simp only [trimR, ht] at h
      by_cases hws : isWS a = true
      · rw [if_pos hws] at h; simp at h
      · rw [if_neg hws] at h; simp at h; simp [h]
    | cons f fs =>
      simp only [trimR, ht] at h
      rcases List.mem_cons.mp h with h1 | h1
      · simp [h1]
      · exact List.mem_cons_of_mem a (ih (by rw [ht]; exact h1))

theorem trimR_head {l : Str} {c : Char} (h : (trimR l).head? = some c) :
    l.head? = some c := by
  cases l with
  | nil => simp [trimR] at h
  | cons a r =>
    cases ht : trimR r with
    | nil =>
      simp only [trimR, ht] at h
      by_cases hws : isWS a = true
      · rw [if_pos hws] at h; simp at h
      · rw [if_neg hws] at h; simpa using h
    | cons f fs =>
      simp only [trimR, ht] at h
      simpa using h

theorem trimR_headNotWS {l : Str} (h : headNotWS l = true) :
    headNotWS (trimR l) = true := by
  cases l with
  | nil => rfl
  | cons a r =>
    cases ht : trimR r with
    | nil =>
      simp only [trimR, ht]
      by_cases hws : isWS a = true
      · rw [if_pos hws]; rfl
      · rw [if_neg hws]; exact h
    | cons f fs =>
      simp only [trimR, ht]
      exact h

theorem trimR_noAdj {l : Str} (h : noAdjWS l = true) :
    noAdjWS (trimR l) = true := by
  induction l with
  | nil => rfl
  | cons a r ih =>
    cases ht : trimR r with
    | nil =>
      simp only [trimR, ht]
      by_cases hws : isWS a = true
      · rw [if_pos hws]; rfl
      · rw [if_neg hws]; rfl
    | cons f fs =>
      simp only [trimR, ht]
      have htail : noAdjWS (f :: fs) = true := ht ▸ ih (noAdjWS_tail h)
      refine noAdjWS_cons_of htail ?_
      intro g hg
      simp only [List.head?] at hg
      injection hg with hg
      subst hg
      have hr : r.head? = some f := trimR_head (by rw [ht]; rfl)
      cases r with
      | nil => simp at hr
      | cons b bs =>
        simp only [List.head?] at hr
        injection hr with hr
        subst hr
        unfold noAdjWS at h
        have := (Bool.and_eq_true _ _).mp h
        have hpair := this.1
        rw [Bool.not_eq_eq_eq_not] at hpair
        simp only [Bool.not_true] at hpair
        rcases Bool.and_eq_false_iff.mp hpair with h1 | h1
        · exact Or.inl h1
        · exact Or.inr h1

theorem trimR_lastNotWS (l : Str) : lastNotWS (trimR l) = true := by
  induction l with
  | nil => rfl
  | cons a r ih =>
    cases ht : trimR r with
    | nil =>
      simp only [trimR, ht]
      by_cases hws : isWS a = true
      · rw [if_pos hws]; rfl
      · rw [if_neg hws]
        have hf : isWS a = false := by simpa using hws
        simp [lastNotWS, hf]
    | cons f fs =>
      simp only [trimR, ht]
      show lastNotWS (a :: f :: fs) = true
      unfold lastNotWS
      exact ht ▸ ih

theorem trimR_eq_self {l : Str} (h : lastNotWS l = true) : trimR l = l := by
  induction l with
  | nil => rfl
  | cons a r ih =>
    cases r with
    | nil =>
      have hws : isWS a = false := by
        simp only [lastNotWS, Bool.not_eq_true'] at h
        exact h
      simp [trimR, hws]
    | cons d rs =>
      have hr : trimR (d :: rs) = d :: rs := ih (by exact h)
      conv_lhs => rw [trimR, hr]

theorem upperL_noPunct {l : Str} (h : ∀ c ∈ l, isPunct c = false) :
    ∀ c ∈ upperL l, isPunct c = false := by
  intro c hc
  rcases List.mem_map.mp hc with ⟨d, hd, hcd⟩
  rw [← hcd, upperChar_isPunct]
  exact h d hd

theorem upperL_ws_space {l : Str} (h : ∀ c ∈ l, isWS c = true → c = ' ') :
    ∀ c ∈ upperL l, isWS c = true → c = ' ' := by
  intro c hc hw
  rcases List.mem_map.mp hc with ⟨d, hd, hcd⟩
  rw [← hcd] at hw ⊢
  rw [upperChar_isWS] at hw
  rw [h d hd hw]
  exact upperChar_space _ rfl

theorem upperL_noAdj {l : Str} (h : noAdjWS l = true) :
    noAdjWS (upperL l) = true := by
  induction l with
  | nil => rfl
  | cons a r ih =>
    cases r with
    | nil => rfl
    | cons d rs =>
      have h2 := (Bool.and_eq_true _ _).mp h
      show noAdjWS (upperChar a :: upperChar d :: List.map upperChar rs) = true
      unfold noAdjWS
      rw [Bool.and_eq_true]
      constructor
      · rw [upperChar_isWS, upperChar_isWS]
        exact h2.1
      · exact ih h2.2

theorem upperL_headNotWS {l : Str} (h : headNotWS l = true) :
    headNotWS (upperL l) = true := by
  cases l with
  | nil => rfl
  | cons a r =>
    show (!isWS (upperChar a)) = true
    rw [upperChar_isWS]
    exact h

theorem upperL_lastNotWS {l : Str} (h : lastNotWS l = true) :
    lastNotWS (upperL l) = true := by
  induction l with
  | nil => rfl
  | cons a r ih =>
    cases r with
    | nil =>
      show (!isWS (upperChar a)) = true
      rw [upperChar_isWS]
      exact h
    | cons d rs =>
      show lastNotWS (upperChar d :: List.map upperChar rs) = true
      exact ih h

theorem upperL_idem (l : Str) : upperL (upperL l) = upperL l := by
  induction l with
  | nil => rfl
  | cons a r ih =>
    show upperChar (upperChar a) :: upperL (upperL r) = upperChar a :: upperL r
    rw [upperChar_idem, ih]

theorem removePunct_noPunct (l : Str) : ∀ c ∈ removePunct l, isPunct c = false := by
  intro c hc
  have := List.of_mem_filter hc
  simpa using this

/-- Structural facts guaranteed for every string produced by
normalize_name: non-empty, free of the removed punctuation, all whitespace
is a single space with no two adjacent, trimmed at both ends, and fixed
under uppercasing. -/
def NormalizedShape (t : Str) : Prop :=
  t ≠ [] ∧ (∀ c ∈ t, isPunct c = false) ∧ (∀ c ∈ t, isWS c = true → c = ' ') ∧
  noAdjWS t = true ∧ headNotWS t = true ∧ lastNotWS t = true ∧ upperL t = t

theorem normalize_name_shape {s : Str} {t : Str}
    (h : normalize_name (some s) = some t) : NormalizedShape t := by
  rw [show normalize_name (some s) =
      (if s.isEmpty then none
       else
         let result := upperL (stripWS (collapseWS (removePunct s)))
         if result.isEmpty then none else some result) from rfl] at h
  by_cases hs : s.isEmpty
  · rw [if_pos hs] at h; exact absurd h (by simp)
  · rw [if_neg hs] at h
    set mid := stripWS (collapseWS (removePunct s)) with hmid
    by_cases hr : (upperL mid).isEmpty
    · rw [if_pos hr] at h; exact absurd h (by simp)
    · rw [if_neg hr] at h
      injection h with h
      have hne : t ≠ [] := by
        rw [← h]; intro hx; rw [hx] at hr; exact hr rfl
      have hmem1 : ∀ c ∈ mid, c ∈ collapseWS (removePunct s) := by
        intro c hc
        rw [hmid] at hc
        exact stripL_mem (trimR_mem hc)
      have hnp : ∀ c ∈ mid, isPunct c = false := by
        intro c hc
        rcases mem_collapseWS (hmem1 c hc) with h1 | h1
        · rw [h1]; decide
        · exact removePunct_noPunct s c h1
      have hws : ∀ c ∈ mid, isWS c = true → c = ' ' := by
        intro c hc hw
        exact collapseWS_ws_space (hmem1 c hc) hw
      have hadj : noAdjWS mid = true := by
        rw [hmid]
        exact trimR_noAdj (stripL_noAdj (collapseWS_noAdj _))
      have hhead : headNotWS mid = true := by
        rw [hmid]
        exact trimR_headNotWS (stripL_headNotWS _)
      have hlast : lastNotWS mid = true := by
        rw [hmid]
        exact trimR_lastNotWS _
      subst h
      exact ⟨hne, upperL_noPunct hnp, upperL_ws_space hws, upperL_noAdj hadj,
        upperL_headNotWS hhead, upperL_lastNotWS hlast, upperL_idem mid⟩

theorem removePunct_eq_self {l : Str} (h : ∀ c ∈ l, isPunct c = false) :
    removePunct l = l := by
  induction l with
  | nil => rfl
  | cons a r ih =>
    have ha : isPunct a = false := h a (by simp)
    show List.filter _ (a :: r) = a :: r
    rw [List.filter_cons]
    simp only [ha, Bool.not_false, if_true]
    rw [show List.filter (fun c => !isPunct c) r = removePunct r from rfl,
      ih (fun c hc => h c (List.mem_cons_of_mem a hc))]

theorem collapseWS_eq_self {l : Str} (hadj : noAdjWS l = true)
    (hws : ∀ c ∈ l, isWS c = true → c = ' ') : collapseWS l = l := by
  induction l with
  | nil => rfl
  | cons a r ih =>
    cases r with
    | nil =>
      show [if isWS a then ' ' else a] = [a]
      cases hw : isWS a
      · rw [if_neg (by simp [hw])]
      · rw [if_pos (by simp [hw]), hws a (by simp) hw]
    | cons d rs =>
      have h2 := (Bool.and_eq_true _ _).mp hadj
      have hpair : (isWS a && isWS d) = false := by
        have := h2.1
        rw [Bool.not_eq_eq_eq_not, Bool.not_true] at this
        exact this
      show collapseWS (a :: d :: rs) = a :: d :: rs
      unfold collapseWS
      rw [if_neg (by simp [hpair])]
      have htail : collapseWS (d :: rs) = d :: rs :=
        ih h2.2 (fun c hc hw => hws c (List.mem_cons_of_mem a hc) hw)
      rw [htail]
      cases hw : isWS a
      · rw [if_neg (by simp [hw])]
      · rw [if_pos (by simp [hw]), hws a (by simp) hw]

/-- C6 counterexample: on the input from the spec example, normalize_name
does not return the claimed value MV SEA STAR, because the slash is not in
the set of removed characters (main.py line 88). -/
theorem normalize_name_sea_star_counterexample :
    normalize_name (some ("  M/V \"Sea Star\"!! ".toList)) ≠
      some ("MV SEA STAR".toList) := by decide

/-- C6 amended: normalize_name applied to the spec example input returns
exactly M/V SEA STAR: quotes, exclamation marks and the surrounding spaces
are removed and the rest uppercased, but the slash stays. -/
theorem normalize_name_sea_star :
    normalize_name (some ("  M/V \"Sea Star\"!! ".toList)) =
      some ("M/V SEA STAR".toList) := by decide

/-- C7: for every input, normalize_name returns None or a non-empty string
that contains none of the removed punctuation characters, whose whitespace
is single spaces with no two adjacent, that is trimmed at both ends, and
that is fixed under uppercasing; in particular it never returns the empty
string. -/
theorem normalize_name_total_shape (s : Option Str) :
    normalize_name s = none ∨
      ∃ t, normalize_name s = some t ∧ t ≠ [] ∧
        (∀ c ∈ t, isPunct c = false) ∧ (∀ c ∈ t, isWS c = true → c = ' ') ∧
        noAdjWS t = true ∧ headNotWS t = true ∧ lastNotWS t = true ∧
        upperL t = t := by
  cases s with
  | none => exact Or.inl rfl
  | some s =>
    cases h : normalize_name (some s) with
    | none => exact Or.inl rfl
    | some t => exact Or.inr ⟨t, rfl, normalize_name_shape h⟩

/-- Witness for the C7 theorem at a concrete input. -/
theorem normalize_name_total_shape_witness :
    normalize_name (some ("  a  b ".toList)) = none ∨
      ∃ t, normalize_name (some ("  a  b ".toList)) = some t ∧ t ≠ [] ∧
        (∀ c ∈ t, isPunct c = false) ∧ (∀ c ∈ t, isWS c = true → c = ' ') ∧
        noAdjWS t = true ∧ headNotWS t = true ∧ lastNotWS t = true ∧
        upperL t = t :=
  normalize_name_total_shape (some ("  a  b ".toList))

/-- C10: normalize_name is idempotent; applying it to its own output
(with None passed through) gives the same result. -/
theorem normalize_name_idempotent (s : Option Str) :
    normalize_name (normalize_name s) = normalize_name s := by
  cases s with
  | none => rfl
  | some s =>
    cases h : normalize_name (some s) with
    | none => rfl
    | some t =>
      obtain ⟨hne, hnp, hws, hadj, hhead, hlast, hupper⟩ :=
        normalize_name_shape h
      have hie : t.isEmpty = false := by
        cases t with
        | nil => exact absurd rfl hne
        | cons a r => rfl
      have h1 : removePunct t = t := removePunct_eq_self hnp
      have h2 : collapseWS t = t := collapseWS_eq_self hadj hws
      have h3 : stripL t = t := stripL_eq_self hhead
      have h4 : trimR t = t := trimR_eq_self hlast
      show normalize_name (some t) = some t
      rw [show normalize_name (some t) =
          (if t.isEmpty then none
           else
             let result := upperL (stripWS (collapseWS (removePunct t)))
             if result.isEmpty then none else some result) from rfl]
      rw [if_neg (by simp [hie])]
      show (if (upperL (stripWS (collapseWS (removePunct t)))).isEmpty
          then none else some (upperL (stripWS (collapseWS (removePunct t)))))
          = some t
      rw [h1, h2]
      rw [show stripWS t = trimR (stripL t) from rfl, h3, h4, hupper]
      rw [if_neg (by simp [hie])]

/-! Data model of src/merge.py.  A vessel row carries the nine columns
selected from the secondary (vesseltracker) and primary (shipxplorer)
vessels tables (merge.py lines 119-121 and 133-138); SQL NULL is Option.
The length and beam columns are carried through untouched by the merge
logic, so their values are modelled as opaque optional strings. -/

structure Row where
  mmsi : Option Str
  imo : Option Str
  name : Option Str
  vtype : Option Str
  callsign : Option Str
  fcc : Option Str
  fc : Option Str
  vlen : Option Str
  vbeam : Option Str
deriving DecidableEq

/-- The in-memory countries mapping: a Python dict from normalized country
name to country code, as an insertion-ordered association list with unique
keys. -/
abbrev CMap := List (Str × Str)

/-- The merged vessels table, in insertion order. -/
abbrev Store := List Row

/-- Python dict membership and subscript read: the value at the first
matching key, if any. -/
def findCode : CMap → Str → Option Str
  | [], _ => none
  | (k, v) :: r, n => if k = n then some v else findCode r n

/-- Python dict subscript assignment: replace the value in place when the
key exists, append otherwise. -/
def setKey : CMap → Str → Str → CMap
  | [], n, c => [(n, c)]
  | (k, v) :: r, n, c =>
    if k = n then (k, c) :: r else (k, v) :: setKey r n c

/-- Python truthiness of an optional string: None and the empty string are
falsy, everything else truthy. -/
def truthy : Option Str → Bool
  | none => false
  | some s => !s.isEmpty

/-- Field normalization idiom of merge.py (lines 126-127, 143): the value
strip().upper() when the raw value is truthy, None otherwise. -/
def normField : Option Str → Option Str
  | none => none
  | some s => if s.isEmpty then none else some (upperL (stripWS s))

/-- The mapping-learning step of merge.py lines 147-148: insert the pair
only when the name is truthy, the name is not already a key, and the code
is truthy. -/
def learn (m : CMap) (nm cd : Option Str) : CMap :=
  match nm, cd with
  | some n, some c =>
    if !n.isEmpty && (findCode m n).isNone && !c.isEmpty then m ++ [(n, c)]
    else m
  | _, _ => m

/-- SQL equality in a WHERE clause: true only when both sides are non-NULL
and equal. -/
def sqlEqB : Option Str → Option Str → Bool
  | some a, some b => a == b
  | _, _ => false

/-- The primary-source query of merge.py lines 133-140: the first row of
the shipxplorer vessels table whose mmsi equals the given mmsi or whose
imo equals the given imo. -/
def sxFind (sx : List Row) (m i : Option Str) : Option Row :=
  sx.find? (fun r => sqlEqB r.mmsi m || sqlEqB r.imo i)

/-- Country-code resolution for one secondary row, merge.py lines 126-148:
normalize the code and name from the secondary row; when the code is falsy
and the name is a mapping key, take the mapped value; when the code is
still falsy, query the primary source by mmsi-or-imo and, on a match, take
the match's normalized code (even when that is None) and learn the
name-code pair.  Returns the updated mapping and the code to store. -/
def resolveCountry (countries : CMap) (sx : List Row) (row : Row) :
    CMap × Option Str :=
  let cCode0 := normField row.fcc
  let cName := normField row.fc
  let cCode1 :=
    if truthy cCode0 = false then
      match cName with
      | some n =>
        match findCode countries n with
        | some v => some v
        | none => cCode0
      | none => cCode0
    else cCode0
  if truthy cCode1 = false then
    match sxFind sx row.mmsi row.imo with
    | some sxRow =>
      let cCode2 := normField sxRow.fcc
      (learn countries cName cCode2, cCode2)
    | none => (countries, cCode1)
  else (countries, cCode1)

/-- Callsign normalization of merge.py lines 152-153: only a truthy string
whose strip() is empty becomes NULL; the empty string stays as it is
because it is falsy. -/
def normCallsign : Option Str → Option Str
  | none => none
  | some s => if !s.isEmpty && (stripWS s).isEmpty then none else some s

/-- One iteration of the merge loop body before the insert (merge.py lines
126-153): resolve the country code and build the row to insert. -/
def processRow (countries : CMap) (sx : List Row) (row : Row) : CMap × Row :=
  let rc := resolveCountry countries sx row
  (rc.1, { row with fcc := rc.2, callsign := normCallsign row.callsign })

/-- Constraint failures the merged vessels table can raise on INSERT
(merge.py lines 93-109 schema: imo and name are NOT NULL, mmsi is the
primary key). -/
inductive MergeErr where
  | notNullViolation
  | pkViolation
deriving DecidableEq

/-- Plain INSERT into the merged vessels table (merge.py lines 155-162):
violating NOT NULL on imo or name fails, a duplicate non-NULL mmsi fails
the primary key (SQLite allows NULL in a TEXT primary key), otherwise the
row is appended. -/
def insertRow (store : Store) (r : Row) : Except MergeErr Store :=
  if r.imo.isNone || r.name.isNone then .error .notNullViolation
  else if r.mmsi.isSome && store.any (fun s => sqlEqB s.mmsi r.mmsi) then
    .error .pkViolation
  else .ok (store ++ [r])

/-- The merge loop of merge_databases (merge.py lines 125-163) over the
rows streamed from the secondary source, starting from a given mapping and
a given already-present merged-table state: each row is processed and
inserted; the first constraint violation aborts the run as an uncaught
sqlite3 error would. -/
def mergeLoop (countries : CMap) (sx : List Row) (store : Store) :
    List Row → Except MergeErr (CMap × Store)
  | [] => .ok (countries, store)
  | r :: rest =>
    match insertRow store (processRow countries sx r).2 with
    | .error e => .error e
    | .ok st => mergeLoop (processRow countries sx r).1 sx st rest

/-- Outcome of trying to read an input file: it does not exist, it exists
but reading or parsing raises (the exception is caught), or it is read
fully. -/
inductive FileRead (α : Type) where
  | absent
  | unreadable
  | ok (a : α)

/-- One CSV row of the bulk reference file (merge.py lines 24-34): rows
that are empty or have fewer than two columns are skipped; name and code
are stripped and uppercased and the pair is stored (dict assignment, so a
later CSV row overwrites an earlier one) only when both survive as
non-empty. -/
def csvAddRow (countries : CMap) (row : List Str) : CMap :=
  match row with
  | [] => countries
  | [_] => countries
  | a :: b :: _ =>
    let cn := if (stripWS a).isEmpty then none else some (upperL (stripWS a))
    let cc := if (stripWS b).isEmpty then none else some (upperL (stripWS b))
    match cn, cc with
    | some n, some c => setKey countries n c
    | _, _ => countries

/-- One key-value pair of the persisted JSON mapping (merge.py lines
44-51): falsy keys and None values are skipped, the key is normalized, and
the value is stored only when the normalized key is not already present,
so an existing entry from the CSV wins.  Values are modelled as optional
strings (None models JSON null). -/
def jsonAdd (countries : CMap) (kv : Str × Option Str) : CMap :=
  if kv.1.isEmpty then countries
  else
    match kv.2 with
    | none => countries
    | some v =>
      let nk := upperL (stripWS kv.1)
      if (findCode countries nk).isNone then
        countries ++ [(nk, upperL (stripWS v))]
      else countries

/-- Step 3 of load_countries_mapping (merge.py lines 55-64): scan the
primary-source rows whose flag columns are both non-NULL and add each
normalized name-code pair first-writer-wins.  The SQL DISTINCT only
removes duplicate pairs, which first-writer-wins makes immaterial. -/
def inferFromSx (countries : CMap) (sx : List Row) : CMap :=
  sx.foldl
    (fun cs r =>
      match r.fcc, r.fc with
      | some a, some b =>
        let cc := if a.isEmpty then none else some (upperL (stripWS a))
        let cn := if b.isEmpty then none else some (upperL (stripWS b))
        match cn, cc with
        | some n, some c =>
          if !n.isEmpty && !c.isEmpty && (findCode cs n).isNone then
            cs ++ [(n, c)]
          else cs
        | _, _ => cs
      | _, _ => cs)
    countries

/-- load_countries_mapping from src/merge.py lines 14-66.  The CSV step is
wrapped in try-except, so an unreadable CSV leaves the mapping as parsed
so far (modelled as empty).  The JSON merge, the primary-source inference
and the return statement are all nested inside the branch taken when the
persisted mapping file exists, so when that file is absent the function
falls off its end and returns None. -/
def load_countries_mapping (csv : FileRead (List (List Str)))
    (jf : FileRead (List (Str × Option Str))) (sx : List Row) : Option CMap :=
  let countries : CMap :=
    match csv with
    | .ok rows => rows.foldl csvAddRow []
    | _ => []
  match jf with
  | .absent => none
  | .unreadable => some (inferFromSx countries sx)
  | .ok kvs => some (inferFromSx (kvs.foldl jsonAdd countries) sx)

theorem isEmpty_false_ne {l : Str} (h : l.isEmpty = false) : l ≠ [] := by
  cases l with
  | nil => simp at h
  | cons a r => simp

/-- C8: learn is first-writer-wins.  For a key already present, a learn
call with any code leaves the mapping unchanged and a later lookup still
returns the stored code; and learn changes the mapping only when the name
is truthy, the code is truthy and the name is not yet a key, in which case
it appends exactly that pair. -/
theorem learn_first_writer_wins (m : CMap) :
    (∀ n c : Str, findCode m n ≠ none →
      learn m (some n) (some c) = m ∧
      findCode (learn m (some n) (some c)) n = findCode m n) ∧
    (∀ nm cd : Option Str, learn m nm cd ≠ m →
      ∃ n c, nm = some n ∧ cd = some c ∧ n ≠ [] ∧ c ≠ [] ∧
        findCode m n = none ∧ learn m nm cd = m ++ [(n, c)]) := by
  constructor
  · intro n c h
    have heq : learn m (some n) (some c) = m := by
      simp only [learn]
      rcases hf : findCode m n with _ | v
      · exact absurd hf h
      · simp [hf]
    exact ⟨heq, by rw [heq]⟩
  · intro nm cd h
    cases nm with
    | none => cases cd <;> simp [learn] at h
    | some n =>
      cases cd with
      | none => simp [learn] at h
      | some c =>
        simp only [learn] at h ⊢
        by_cases hc : (!n.isEmpty && (findCode m n).isNone && !c.isEmpty) = true
        · rw [if_pos hc] at h ⊢
          have h1 := (Bool.and_eq_true _ _).mp hc
          have h2 := (Bool.and_eq_true _ _).mp h1.1
          refine ⟨n, c, rfl, rfl, ?_, ?_, ?_, rfl⟩
          · exact isEmpty_false_ne (by simpa using h2.1)
          · exact isEmpty_false_ne (by simpa using h1.2)
          · exact Option.isNone_iff_eq_none.mp h2.2
        · rw [if_neg hc] at h
          exact absurd rfl h

/-- Witness for the C8 theorem: on a concrete mapping that already binds
the key AB, a learn call with a different code is a no-op and lookup still
returns the original code. -/
theorem learn_first_writer_wins_witness :
    learn [("AB".toList, "XY".toList)] (some "AB".toList) (some "ZZ".toList) =
      [("AB".toList, "XY".toList)] ∧
    findCode
      (learn [("AB".toList, "XY".toList)] (some "AB".toList)
        (some "ZZ".toList)) "AB".toList =
      findCode [("AB".toList, "XY".toList)] "AB".toList :=
  (learn_first_writer_wins [("AB".toList, "XY".toList)]).1 "AB".toList
    "ZZ".toList (by decide)

/-- C1 amended: country-code precedence as implemented.  When the
secondary row carries a truthy normalized country code, that code is kept
and neither the mapping nor the primary source changes the outcome; the
primary-source code is taken only when the secondary code is falsy and the
mapping lookup on the normalized name misses, in which case the matched
primary code (even None) is stored and the name-code pair is learned. -/
theorem resolveCountry_precedence (cs : CMap) (sx : List Row) (row : Row) :
    (truthy (normField row.fcc) = true →
      processRow cs sx row =
        (cs, { row with fcc := normField row.fcc,
                        callsign := normCallsign row.callsign })) ∧
    (truthy (normField row.fcc) = false →
      (match normField row.fc with
       | some n => findCode cs n
       | none => none) = none →
      ∀ m, sxFind sx row.mmsi row.imo = some m →
        processRow cs sx row =
          (learn cs (normField row.fc) (normField m.fcc),
           { row with fcc := normField m.fcc,
                      callsign := normCallsign row.callsign })) := by
  constructor
  · intro h
    simp only [processRow, resolveCountry]
    rw [if_neg (by simp [h]), if_neg (by simp [h])]
  · intro h hmap m hm
    simp only [processRow, resolveCountry]
    rw [if_pos h]
    have hcode1 :
        (match normField row.fc with
         | some n =>
           match findCode cs n with
           | some v => some v
           | none => normField row.fcc
         | none => normField row.fcc) = normField row.fcc := by
      cases hfc : normField row.fc with
      | none => rfl
      | some n =>
        rw [hfc] at hmap
        simp only at hmap
        simp [hmap]
    rw [hcode1, if_pos h, hm]

/-- A secondary row that already carries the country code FR along with a
primary-source match that carries US. -/
def secRowFR : Row :=
  { mmsi := some "123".toList, imo := some "456".toList,
    name := some "ALPHA".toList, vtype := none, callsign := none,
    fcc := some "FR".toList, fc := some "FRANCE".toList,
    vlen := none, vbeam := none }

/-- The matching primary-source row whose country code is US. -/
def priRowUS : Row :=
  { mmsi := some "123".toList, imo := some "456".toList,
    name := some "ALPHA".toList, vtype := none, callsign := none,
    fcc := some "US".toList, fc := some "UNITED STATES".toList,
    vlen := none, vbeam := none }

/-- C1 counterexample: a primary-source match with a present country code
exists, yet the reconciled record keeps the secondary code FR instead of
the primary code US, because merge.py (line 131) consults the primary
source only when the secondary code is falsy. -/
theorem country_precedence_counterexample :
    sxFind [priRowUS] secRowFR.mmsi secRowFR.imo = some priRowUS ∧
    truthy priRowUS.fcc = true ∧
    ((processRow [] [priRowUS] secRowFR).2).fcc = some "FR".toList ∧
    ((processRow [] [priRowUS] secRowFR).2).fcc ≠ some "US".toList := by
  decide

/-- The spec test record: same vessel in the secondary source with no
country code and the country name United States. -/
def secRowNoCode : Row :=
  { mmsi := some "123".toList, imo := some "456".toList,
    name := some "ALPHA".toList, vtype := none, callsign := none,
    fcc := none, fc := some "United States".toList,
    vlen := none, vbeam := none }

/-- Witness for the C1 amended theorem at the concrete records of the spec
example: the secondary record with no code gets the primary code US and
the pair UNITED STATES to US is learned. -/
theorem resolveCountry_precedence_witness :
    processRow [] [priRowUS] secRowNoCode =
      (learn [] (normField secRowNoCode.fc) (normField priRowUS.fcc),
       { secRowNoCode with fcc := normField priRowUS.fcc,
                           callsign := normCallsign secRowNoCode.callsign }) :=
  (resolveCountry_precedence [] [priRowUS] secRowNoCode).2 (by decide)
    (by decide) priRowUS (by decide)

/-- A secondary row whose callsign is the empty string. -/
def rowEmptyCallsign : Row :=
  { mmsi := some "5".toList, imo := some "I".toList,
    name := some "N".toList, vtype := none, callsign := some [],
    fcc := none, fc := none, vlen := none, vbeam := none }

/-- C5: the callsign guard of merge.py line 152 requires a truthy value,
so the empty string falls through unchanged and is inserted as the empty
string, while a whitespace-only callsign does become NULL.  The inline
comment and the spec say the empty string becomes NULL. -/
theorem empty_callsign_stored_as_empty :
    normCallsign (some []) = some [] ∧
    normCallsign (some [' ']) = none ∧
    mergeLoop [] [] [] [rowEmptyCallsign] =
      Except.ok ([], [rowEmptyCallsign]) ∧
    rowEmptyCallsign.callsign = some [] := by
  exact ⟨by decide, by decide, rfl, rfl⟩

/-- A secondary row whose mmsi is the empty string (falsy, so a record the
spec says is dropped). -/
def rowEmptyMmsi : Row :=
  { mmsi := some [], imo := some "I".toList, name := some "N".toList,
    vtype := none, callsign := none, fcc := none, fc := none,
    vlen := none, vbeam := none }

/-- Number of secondary rows with a truthy mmsi. -/
def nonEmptyMmsiCount (vt : List Row) : Nat :=
  (vt.filter (fun r => truthy r.mmsi)).length

/-- C9 counterexample: merge_databases performs no mmsi check at all
(merge.py lines 125-163), so a secondary row with an empty mmsi is
inserted into the merged store; the final count is 1 although the claim
predicts 0 for this input. -/
theorem missing_mmsi_row_inserted :
    mergeLoop [] [] [] [rowEmptyMmsi] = Except.ok ([], [rowEmptyMmsi]) ∧
    truthy rowEmptyMmsi.mmsi = false ∧
    nonEmptyMmsiCount [rowEmptyMmsi] = 0 ∧
    ([rowEmptyMmsi] : Store).length = 1 := by
  exact ⟨rfl, by decide, by decide, by decide⟩

theorem processRow_mmsi (cs : CMap) (sx : List Row) (r : Row) :
    ((processRow cs sx r).2).mmsi = r.mmsi := rfl

theorem insertRow_ok {store : Store} {r : Row} {st : Store}
    (h : insertRow store r = Except.ok st) : st = store ++ [r] := by
  unfold insertRow at h
  split at h
  · simp at h
  · split at h
    · simp at h
    · injection h with h
      exact h.symm

/-- C9 amended: reconciliation drops nothing.  Whenever the merge loop
completes without a constraint violation, the merged store holds one row
per secondary row in order (rows with empty or even NULL mmsi included),
appended after whatever was already in the store; in particular the final
count is the initial count plus the total number of secondary rows. -/
theorem mergeLoop_inserts_every_row (cs : CMap) (sx : List Row)
    (store : Store) (vt : List Row) (p : CMap × Store)
    (h : mergeLoop cs sx store vt = Except.ok p) :
    p.2.map Row.mmsi = store.map Row.mmsi ++ vt.map Row.mmsi := by
  induction vt generalizing cs store p with
  | nil =>
    simp only [mergeLoop] at h
    injection h with h
    rw [← h]
    simp
  | cons r rest ih =>
    simp only [mergeLoop] at h
    cases hI : insertRow store (processRow cs sx r).2 with
    | error e => rw [hI] at h; simp at h
    | ok st =>
      rw [hI] at h
      rw [ih _ _ _ h, insertRow_ok hI]
      simp [processRow_mmsi]

/-- Witness for the C9 amended theorem on a concrete one-row secondary
source. -/
theorem mergeLoop_inserts_every_row_witness :
    ((([] : CMap), ([rowEmptyMmsi] : Store)) : CMap × Store).2.map Row.mmsi =
      ([] : Store).map Row.mmsi ++ [rowEmptyMmsi].map Row.mmsi :=
  mergeLoop_inserts_every_row [] [] [] [rowEmptyMmsi] ([], [rowEmptyMmsi])
    (by rfl)

/-- C3: behaviour of load_countries_mapping per input-file state.  An
unreadable CSV or JSON file degrades gracefully to a (possibly empty)
mapping, but an absent persisted-mapping file makes the function return
None instead of a mapping, because the return statement sits inside the
branch that requires the file to exist; merge_databases then treats None
as the mapping and the run aborts with an uncaught exception. -/
theorem load_mapping_absent_file_returns_none :
    load_countries_mapping .absent .absent [] = none ∧
    load_countries_mapping (.ok [["FRANCE".toList, "FR".toList]]) .absent []
      = none ∧
    load_countries_mapping .unreadable .absent [] = none ∧
    load_countries_mapping .absent .unreadable [] = some [] ∧
    load_countries_mapping .unreadable .unreadable [] = some [] ∧
    load_countries_mapping .absent (.ok []) [] = some [] := by
  exact ⟨rfl, rfl, rfl, rfl, rfl, rfl⟩

/-- C4: on a key present in both inputs, the loaded mapping keeps the bulk
reference (CSV) value, not the persisted-mapping value, because the JSON
merge of merge.py line 50 inserts only keys not already present.  The
claim, like the comment on merge.py line 38, says the persisted value
wins. -/
theorem csv_wins_over_persisted_mapping :
    load_countries_mapping (.ok [["France".toList, "XX".toList]])
        (.ok [("France".toList, some "FR".toList)]) [] =
      some [("FRANCE".toList, "XX".toList)] ∧
    findCode [("FRANCE".toList, "XX".toList)] "FRANCE".toList =
      some "XX".toList ∧
    some "XX".toList ≠ some "FR".toList := by
  exact ⟨by decide, by decide, by decide⟩

/-- Secondary demo row number n: distinct mmsi, valid imo and name, no
country data. -/
def demoRow (n : Nat) : Row :=
  { mmsi := some (List.replicate (n + 1) 'A'), imo := some "I".toList,
    name := some "N".toList, vtype := none, callsign := none,
    fcc := none, fc := none, vlen := none, vbeam := none }

/-- A secondary source of exactly 100 rows, the checkpoint interval of
merge.py line 164, so the state after the first checkpoint commit is the
whole table. -/
def demoVt : List Row := (List.range 100).map demoRow

set_option maxRecDepth 20000 in
/-- C2: the merged-store insert is a plain INSERT, not insert-or-replace.
An uninterrupted run over 100 distinct rows succeeds and commits them at
the checkpoint; re-running reconciliation from the beginning over the
committed state aborts at the first row with a primary-key violation
instead of reproducing the uninterrupted final state. -/
theorem plain_insert_breaks_restart :
    mergeLoop [] [] [] demoVt = Except.ok ([], demoVt) ∧
    mergeLoop [] [] demoVt demoVt = Except.error MergeErr.pkViolation := by
  exact ⟨rfl, rfl⟩
